import Mathlib

/-!
Verification of the article-persistence and slug-identity model of a small
single-user blog CMS (src/main.py).  The data layer is a SQLite table
`articoli (id INTEGER PRIMARY KEY AUTOINCREMENT, titolo TEXT NOT NULL,
slug TEXT NOT NULL UNIQUE, data TEXT NOT NULL, tags TEXT, contenuto TEXT)`
together with four access functions (`add_article`, `update_article`,
`get_article_by_id`, `get_articles`) and a slug helper `create_slug`.

The shallow embedding below models text as `List Char`, the table as a list
of rows in rowid (insertion) order plus the AUTOINCREMENT counter, and each
Python function as a pure Lean function returning the new table state and
the Boolean the Python function returns.
-/

namespace CMS

/-- Characters matched by the Python regex class `\s` on `str` patterns
(Unicode whitespace: 09-0D, 1C-1F, 20, 85, A0, 1680, 2000-200A, 2028, 2029,
202F, 205F, 3000). -/
def isPySpace (c : Char) : Bool :=
  let n := c.toNat
  (decide (9 ≤ n) && decide (n ≤ 13)) || (decide (28 ≤ n) && decide (n ≤ 31)) ||
    decide (n = 32) || decide (n = 133) || decide (n = 160) || decide (n = 0x1680) ||
    (decide (0x2000 ≤ n) && decide (n ≤ 0x200a)) || decide (n = 0x2028) ||
    decide (n = 0x2029) || decide (n = 0x202f) || decide (n = 0x205f) ||
    decide (n = 0x3000)

/-- Lowercase ASCII letter (codepoints 97-122). -/
def isLowerAZ (c : Char) : Bool := decide (97 ≤ c.toNat) && decide (c.toNat ≤ 122)

/-- ASCII digit (codepoints 48-57). -/
def isDigit09 (c : Char) : Bool := decide (48 ≤ c.toNat) && decide (c.toNat ≤ 57)

/-- The character class kept by `re.sub(r'[^a-z0-9\s-]', '', slug)` in
`create_slug`: lowercase ASCII letters, digits, whitespace and hyphen. -/
def keepChar (c : Char) : Bool :=
  isLowerAZ c || isDigit09 c || isPySpace c || decide (c = '-')

/-- `str.lower()` restricted to the ASCII range: maps A-Z (65-90) to a-z and
leaves other characters unchanged.  (Unicode one-off case mappings outside
ASCII are not modelled; every such image is stripped or kept unchanged by the
following filter, so the properties proved below are unaffected.) -/
def pyLower (c : Char) : Char :=
  if 65 ≤ c.toNat ∧ c.toNat ≤ 90 then Char.ofNat (c.toNat + 32) else c

/-- `re.sub(r'\s+', '-', slug)`: replace each maximal run of whitespace by a
single hyphen.  The Boolean accumulator records whether a whitespace run is
pending (so that a run ending at the end of the string still yields one
hyphen). -/
def collapseWS : Bool → List Char → List Char
  | false, [] => []
  | true, [] => ['-']
  | pending, c :: rest =>
    if isPySpace c then collapseWS true rest
    else if pending then '-' :: c :: collapseWS false rest
    else c :: collapseWS false rest

/-- `create_slug(title)` from src/main.py: lowercase, strip every character
outside `[a-z0-9\s-]`, then collapse whitespace runs into single hyphens. -/
def create_slug (titolo : List Char) : List Char :=
  collapseWS false (List.filter keepChar (titolo.map pyLower))

set_option maxHeartbeats 1000000 in
/-- Membership in the output of `collapseWS`: every emitted character is
either a hyphen or a non-whitespace character of the input. -/
theorem mem_collapseWS :
    ∀ (l : List Char) (b : Bool) (ch : Char), ch ∈ collapseWS b l →
      ch = '-' ∨ (ch ∈ l ∧ isPySpace ch = false) := by
  intro l
  induction l with
  | nil =>
    intro b ch h
    cases b <;> simp [collapseWS] at h
    exact Or.inl h
  | cons c rest ih =>
    intro b ch h
    simp only [collapseWS] at h
    by_cases hsp : isPySpace c
    · rw [if_pos hsp] at h
      rcases ih true ch h with h1 | ⟨h2, h3⟩
      · exact Or.inl h1
      · exact Or.inr ⟨List.mem_cons_of_mem _ h2, h3⟩
    · rw [if_neg hsp] at h
      have hbool : isPySpace c = false := by
        cases hb : isPySpace c
        · rfl
        · exact absurd hb hsp
      cases b
      · rw [if_neg (by simp)] at h
        rcases List.mem_cons.mp h with h1 | h1
        · exact Or.inr ⟨by simp [h1], by rw [h1]; exact hbool⟩
        · rcases ih false ch h1 with h2 | ⟨h3, h4⟩
          · exact Or.inl h2
          · exact Or.inr ⟨List.mem_cons_of_mem _ h3, h4⟩
      · rw [if_pos rfl] at h
        rcases List.mem_cons.mp h with h1 | h1
        · exact Or.inl h1
        · rcases List.mem_cons.mp h1 with h2 | h2
          · exact Or.inr ⟨by simp [h2], by rw [h2]; exact hbool⟩
          · rcases ih false ch h2 with h3 | ⟨h4, h5⟩
            · exact Or.inl h3
            · exact Or.inr ⟨List.mem_cons_of_mem _ h4, h5⟩

/-- Two consecutive hyphens occur somewhere in the list. -/
def hasDoubleHyphen : List Char → Bool
  | a :: b :: rest => (decide (a = '-') && decide (b = '-')) || hasDoubleHyphen (b :: rest)
  | _ => false

theorem hasDoubleHyphen_cons_of_ne {c : Char} (out : List Char) (h : c ≠ '-') :
    hasDoubleHyphen (c :: out) = hasDoubleHyphen out := by
  cases out with
  | nil => simp [hasDoubleHyphen]
  | cons b t => simp [hasDoubleHyphen, h]

set_option maxHeartbeats 1000000 in
/-- If the input contains no literal hyphen, `collapseWS` never emits two
consecutive hyphens: the hyphens it produces stand for maximal whitespace
runs, which are separated by non-hyphen characters. -/
theorem noDouble_collapseWS :
    ∀ (l : List Char) (b : Bool), '-' ∉ l → hasDoubleHyphen (collapseWS b l) = false := by
  intro l
  induction l with
  | nil =>
    intro b _
    cases b <;> simp [collapseWS, hasDoubleHyphen]
  | cons c rest ih =>
    intro b h
    have hc : c ≠ '-' := fun hc => h (by simp [hc])
    have hrest : '-' ∉ rest := fun hr => h (List.mem_cons_of_mem _ hr)
    simp only [collapseWS]
    by_cases hsp : isPySpace c
    · rw [if_pos hsp]
      exact ih true hrest
    · rw [if_neg hsp]
      cases b
      · rw [if_neg (by simp)]
        rw [hasDoubleHyphen_cons_of_ne _ hc]
        exact ih false hrest
      · rw [if_pos rfl]
        have h1 : hasDoubleHyphen ('-' :: c :: collapseWS false rest) =
            hasDoubleHyphen (c :: collapseWS false rest) := by
          simp [hasDoubleHyphen, hc]
        rw [h1, hasDoubleHyphen_cons_of_ne _ hc]
        exact ih false hrest

/-- `pyLower` maps no character other than the hyphen to a hyphen (the
shifted A-Z range lands in a-z, far from codepoint 45). -/
theorem pyLower_eq_hyphen {c : Char} (h : pyLower c = '-') : c = '-' := by
  unfold pyLower at h
  split at h
  · rename_i hr
    have key : ∀ n, n < 91 → 65 ≤ n → Char.ofNat (n + 32) ≠ '-' := by decide
    exact absurd h (key c.toNat (Nat.lt_succ_of_le hr.2) hr.1)
  · exact h

/-- C3: every character of a slug is a lowercase ASCII letter, a digit, or a
hyphen; and for an input containing no literal hyphen (so that all hyphens in
the output come from whitespace runs) the slug never contains two consecutive
hyphens. -/
theorem create_slug_alphabet_no_double_hyphen (s : List Char) :
    (∀ ch ∈ create_slug s, isLowerAZ ch = true ∨ isDigit09 ch = true ∨ ch = '-') ∧
    ('-' ∉ s → hasDoubleHyphen (create_slug s) = false) := by
  constructor
  · intro ch hch
    rcases mem_collapseWS _ _ _ hch with h | ⟨hmem, hsp⟩
    · exact Or.inr (Or.inr h)
    · have hf := List.mem_filter.mp hmem
      have hk := hf.2
      unfold keepChar at hk
      simp only [Bool.or_eq_true, decide_eq_true_eq] at hk
      rcases hk with ((hl | hd) | hs) | hh
      · exact Or.inl hl
      · exact Or.inr (Or.inl hd)
      · rw [hsp] at hs; exact absurd hs (by simp)
      · exact Or.inr (Or.inr hh)
  · intro hs
    apply noDouble_collapseWS
    intro hmem
    have h1 := (List.mem_filter.mp hmem).1
    rcases List.mem_map.mp h1 with ⟨c, hc, hlow⟩
    have := pyLower_eq_hyphen hlow
    rw [this] at hc
    exact hs hc

/-- Witness for C3 at a concrete hyphen-free input containing a double
space. -/
theorem create_slug_alphabet_no_double_hyphen_witness :
    (∀ ch ∈ create_slug ['H', 'i', ' ', ' ', 'Y', 'o', 'u', '!'],
      isLowerAZ ch = true ∨ isDigit09 ch = true ∨ ch = '-') ∧
    hasDoubleHyphen (create_slug ['H', 'i', ' ', ' ', 'Y', 'o', 'u', '!']) = false :=
  ⟨(create_slug_alphabet_no_double_hyphen ['H', 'i', ' ', ' ', 'Y', 'o', 'u', '!']).1,
   (create_slug_alphabet_no_double_hyphen ['H', 'i', ' ', ' ', 'Y', 'o', 'u', '!']).2
     (by decide)⟩

/-- One row of the `articoli` table. -/
structure Article where
  id : Nat
  titolo : List Char
  slug : List Char
  data : List Char
  tags : List Char
  contenuto : List Char
deriving DecidableEq

/-- The table state: rows in rowid (insertion) order together with the
AUTOINCREMENT counter (the next id to assign; SQLite starts at 1). -/
structure DB where
  rows : List Article
  nextId : Nat
deriving DecidableEq

/-- The freshly initialized empty table produced by `init_db`. -/
def emptyDB : DB := { rows := [], nextId := 1 }

/-- `add_article(titolo, tags, contenuto)`: derive the slug, stamp today's
date (`today` stands for `date.today().strftime('%Y-%m-%d')`), INSERT.  The
INSERT raises `sqlite3.IntegrityError` exactly when the UNIQUE constraint on
`slug` is violated (all NOT NULL columns receive strings); a failed statement
writes nothing and the function returns False. -/
def add_article (db : DB) (titolo tags contenuto today : List Char) : DB × Bool :=
  let slug := create_slug titolo
  let row : Article :=
    { id := db.nextId, titolo := titolo, slug := slug,
      data := today, tags := tags, contenuto := contenuto }
  if ∃ a ∈ db.rows, a.slug = slug then (db, false)
  else ({ rows := db.rows ++ [row], nextId := db.nextId + 1 }, true)

/-- The row transformation of the UPDATE statement: the row matching `id`
receives the new titolo/slug/tags/contenuto (its `data` column is not in the
SET clause and is untouched); other rows are unchanged. -/
def updRow (i : Nat) (titolo slug tags contenuto : List Char) (a : Article) : Article :=
  if a.id = i then
    { a with titolo := titolo, slug := slug, tags := tags, contenuto := contenuto }
  else a

/-- `update_article(id, titolo, tags, contenuto)`: re-derive the slug and
UPDATE the row matching `id`, leaving `data` untouched.  If no row matches,
the UPDATE affects zero rows and succeeds (returns True).  If a row matches
and a *different* row already holds the new slug, the UNIQUE constraint
raises `IntegrityError`, nothing is written, and the function returns
False. -/
def update_article (db : DB) (i : Nat) (titolo tags contenuto : List Char) : DB × Bool :=
  let slug := create_slug titolo
  if ∃ a ∈ db.rows, a.id = i then
    if ∃ a ∈ db.rows, a.id ≠ i ∧ a.slug = slug then (db, false)
    else ({ db with rows := db.rows.map (updRow i titolo slug tags contenuto) }, true)
  else (db, true)

/-- `get_article_by_id(id)`: SELECT * FROM articoli WHERE id=? and fetch the
first (under the primary key, the only) matching row, or None. -/
def get_article_by_id (db : DB) (i : Nat) : Option Article :=
  db.rows.find? fun a => decide (a.id = i)

/-- Codepoint-order lexicographic less-or-equal: the order SQLite uses for
TEXT values under the default BINARY collation (memcmp on UTF-8 agrees with
codepoint order). -/
def lexLe : List Char → List Char → Bool
  | [], _ => true
  | _ :: _, [] => false
  | a :: as, b :: bs => if a < b then true else if b < a then false else lexLe as bs

/-- `x` may precede `y` in the output of `ORDER BY data DESC`: descending
order on the date string. -/
def dataDescBefore (x y : Article) : Prop := lexLe y.data x.data = true

instance : DecidableRel dataDescBefore := fun x y => by
  unfold dataDescBefore; infer_instance

/-- `get_articles()`: SELECT * FROM articoli ORDER BY data DESC.  The table
scan enumerates rows in rowid (insertion) order and rows with equal `data`
keep that relative order; modelled as a stable insertion sort of the row
list. -/
def get_articles (db : DB) : List Article :=
  List.insertionSort dataDescBefore db.rows

/-- The write operations the presentation layer can invoke on the store. -/
inductive Op where
  | add (titolo tags contenuto today : List Char)
  | upd (i : Nat) (titolo tags contenuto : List Char)

/-- State transition of one operation (the returned Boolean is dropped). -/
def applyOp (db : DB) : Op → DB
  | .add t g c d => (add_article db t g c d).1
  | .upd i t g c => (update_article db i t g c).1

/-- Run a sequence of operations from the freshly initialized database. -/
def run (ops : List Op) : DB := ops.foldl applyOp emptyDB

/-- Primary-key and AUTOINCREMENT facts: every stored id is below the
counter, and ids strictly increase in insertion order. -/
def idsOk (db : DB) : Prop :=
  (∀ a ∈ db.rows, a.id < db.nextId) ∧ db.rows.Pairwise fun a b => a.id < b.id

/-- Slug facts maintained by the store: every stored slug is derived from the
stored title, and slugs are pairwise distinct (the UNIQUE constraint). -/
def slugsOk (db : DB) : Prop :=
  (∀ a ∈ db.rows, a.slug = create_slug a.titolo) ∧
    db.rows.Pairwise fun a b => a.slug ≠ b.slug

/-- Invariant of every reachable table state. -/
def Inv (db : DB) : Prop := idsOk db ∧ slugsOk db

instance (db : DB) : Decidable (idsOk db) := by unfold idsOk; infer_instance

instance (db : DB) : Decidable (slugsOk db) := by unfold slugsOk; infer_instance

instance (db : DB) : Decidable (Inv db) := by unfold Inv; infer_instance

/-- Branch lemma: the INSERT hits the UNIQUE constraint. -/
theorem add_article_dup {db : DB} {t g c d : List Char}
    (h : ∃ a ∈ db.rows, a.slug = create_slug t) :
    add_article db t g c d = (db, false) := by
  simp only [add_article]
  rw [if_pos h]

/-- Branch lemma: the INSERT succeeds and appends the new row. -/
theorem add_article_free {db : DB} {t g c d : List Char}
    (h : ¬ ∃ a ∈ db.rows, a.slug = create_slug t) :
    add_article db t g c d =
      ({ rows := db.rows ++
           [{ id := db.nextId, titolo := t, slug := create_slug t,
              data := d, tags := g, contenuto := c }],
         nextId := db.nextId + 1 }, true) := by
  simp only [add_article]
  rw [if_neg h]

/-- Branch lemma: UPDATE with no matching row affects nothing and raises no
error, so the function reports success. -/
theorem update_article_missing {db : DB} {i : Nat} {t g c : List Char}
    (h : ¬ ∃ a ∈ db.rows, a.id = i) :
    update_article db i t g c = (db, true) := by
  simp only [update_article]
  rw [if_neg h]

/-- Branch lemma: UPDATE whose new slug is held by a different row hits the
UNIQUE constraint. -/
theorem update_article_dup {db : DB} {i : Nat} {t g c : List Char}
    (hp : ∃ a ∈ db.rows, a.id = i)
    (hc : ∃ a ∈ db.rows, a.id ≠ i ∧ a.slug = create_slug t) :
    update_article db i t g c = (db, false) := by
  simp only [update_article]
  rw [if_pos hp, if_pos hc]

/-- Branch lemma: the UPDATE succeeds and rewrites the matching row. -/
theorem update_article_ok {db : DB} {i : Nat} {t g c : List Char}
    (hp : ∃ a ∈ db.rows, a.id = i)
    (hc : ¬ ∃ a ∈ db.rows, a.id ≠ i ∧ a.slug = create_slug t) :
    update_article db i t g c =
      ({ db with rows := db.rows.map (updRow i t (create_slug t) g c) }, true) := by
  simp only [update_article]
  rw [if_pos hp, if_neg hc]

theorem updRow_id (i : Nat) (t s g c : List Char) (a : Article) :
    (updRow i t s g c a).id = a.id := by
  unfold updRow
  split <;> rfl

theorem updRow_of_ne {i : Nat} {t s g c : List Char} {a : Article}
    (h : a.id ≠ i) : updRow i t s g c a = a := by
  unfold updRow
  rw [if_neg h]

theorem updRow_of_eq {i : Nat} {t s g c : List Char} {a : Article}
    (h : a.id = i) :
    updRow i t s g c a =
      { a with titolo := t, slug := s, tags := g, contenuto := c } := by
  unfold updRow
  rw [if_pos h]

/-- Under the primary-key invariant, a stored id determines the row. -/
theorem id_inj {db : DB} (h : idsOk db) {a b : Article}
    (ha : a ∈ db.rows) (hb : b ∈ db.rows) (hid : a.id = b.id) : a = b := by
  by_contra hne
  have hpw : db.rows.Pairwise fun x y => x.id ≠ y.id :=
    h.2.imp fun hxy => Nat.ne_of_lt hxy
  exact absurd hid (List.Pairwise.forall (fun _ _ hxy => Ne.symm hxy) hpw ha hb hne)

/-- Under the UNIQUE invariant, distinct stored rows have distinct slugs. -/
theorem slug_inj {db : DB} (h : slugsOk db) {a b : Article}
    (ha : a ∈ db.rows) (hb : b ∈ db.rows) (hne : a ≠ b) : a.slug ≠ b.slug :=
  List.Pairwise.forall (fun _ _ hxy => Ne.symm hxy) h.2 ha hb hne

theorem Inv_emptyDB : Inv emptyDB := by decide

/-- `add_article` preserves the invariant. -/
theorem Inv_add {db : DB} (h : Inv db) (t g c d : List Char) :
    Inv (add_article db t g c d).1 := by
  by_cases hdup : ∃ a ∈ db.rows, a.slug = create_slug t
  · rw [add_article_dup hdup]
    exact h
  · rw [add_article_free hdup]
    obtain ⟨⟨hlt, hidpw⟩, hder, hslugpw⟩ := h
    push_neg at hdup
    refine ⟨⟨?_, ?_⟩, ?_, ?_⟩
    · rw [List.forall_mem_append]
      constructor
      · exact fun a ha => Nat.lt_succ_of_lt (hlt a ha)
      · intro a ha
        rw [List.mem_singleton] at ha
        rw [ha]
        exact Nat.lt_succ_self _
    · rw [List.pairwise_append]
      refine ⟨hidpw, List.pairwise_singleton _ _, ?_⟩
      intro a ha b hb
      rw [List.mem_singleton] at hb
      rw [hb]
      exact hlt a ha
    · rw [List.forall_mem_append]
      constructor
      · exact hder
      · intro a ha
        rw [List.mem_singleton] at ha
        rw [ha]
    · rw [List.pairwise_append]
      refine ⟨hslugpw, List.pairwise_singleton _ _, ?_⟩
      intro a ha b hb
      rw [List.mem_singleton] at hb
      rw [hb]
      exact hdup a ha

/-- `update_article` preserves the invariant. -/
theorem Inv_update {db : DB} (h : Inv db) (i : Nat) (t g c : List Char) :
    Inv (update_article db i t g c).1 := by
  by_cases hp : ∃ a ∈ db.rows, a.id = i
  · by_cases hc : ∃ a ∈ db.rows, a.id ≠ i ∧ a.slug = create_slug t
    · rw [update_article_dup hp hc]
      exact h
    · rw [update_article_ok hp hc]
      obtain ⟨⟨hlt, hidpw⟩, hder, hslugpw⟩ := h
      push_neg at hc
      refine ⟨⟨?_, ?_⟩, ?_, ?_⟩
      · intro x hx
        obtain ⟨a, ha, rfl⟩ := List.mem_map.mp hx
        rw [updRow_id]
        exact hlt a ha
      · rw [List.pairwise_map]
        exact hidpw.imp fun hab => by rw [updRow_id, updRow_id]; exact hab
      · intro x hx
        obtain ⟨a, ha, rfl⟩ := List.mem_map.mp hx
        by_cases hai : a.id = i
        · rw [updRow_of_eq hai]
        · rw [updRow_of_ne hai]
          exact hder a ha
      · rw [List.pairwise_map]
        refine List.Pairwise.imp_of_mem ?_ hslugpw
        intro a b ha hb hab
        by_cases hai : a.id = i <;> by_cases hbi : b.id = i
        · exact absurd (id_inj ⟨hlt, hidpw⟩ ha hb (hai.trans hbi.symm))
            fun he => hab (he ▸ rfl)
        · rw [updRow_of_eq hai, updRow_of_ne hbi]
          exact fun he => hc b hb hbi he.symm
        · rw [updRow_of_ne hai, updRow_of_eq hbi]
          exact fun he => hc a ha hai he
        · rw [updRow_of_ne hai, updRow_of_ne hbi]
          exact hab
  · rw [update_article_missing hp]
    exact h

/-- Every operation preserves the invariant. -/
theorem Inv_applyOp {db : DB} (h : Inv db) (op : Op) : Inv (applyOp db op) := by
  cases op with
  | add t g c d => exact Inv_add h t g c d
  | upd i t g c => exact Inv_update h i t g c

theorem Inv_foldl : ∀ (ops : List Op) (db : DB), Inv db → Inv (ops.foldl applyOp db)
  | [], _, h => h
  | op :: ops, _, h => Inv_foldl ops _ (Inv_applyOp h op)

/-- Every reachable table state satisfies the invariant. -/
theorem Inv_run (ops : List Op) : Inv (run ops) := Inv_foldl ops emptyDB Inv_emptyDB

/-- A concrete stored row used by the witnesses below. -/
def rowA : Article :=
  { id := 1, titolo := ['a'], slug := ['a'], data := ['d'], tags := [], contenuto := [] }

/-- A second concrete stored row used by the witnesses below. -/
def rowB : Article :=
  { id := 2, titolo := ['b'], slug := ['b'], data := ['e'], tags := [], contenuto := [] }

/-- A concrete two-row table used by the witnesses below. -/
def dbW : DB := { rows := [rowA, rowB], nextId := 3 }

/-- C1: for every store state, creating an article whose derived slug is
already held by a stored (hence different-id) article, or updating an
existing article to a slug held by a different id, fails with the
duplicate-slug outcome (IntegrityError, returned as False) and leaves the
stored table exactly as it was — no partial write. -/
theorem duplicate_slug_fails_and_preserves_state
    (db : DB) (i : Nat) (t g c d t2 g2 c2 : List Char)
    (hcreate : ∃ a ∈ db.rows, a.slug = create_slug t)
    (hid : ∃ a ∈ db.rows, a.id = i)
    (hupd : ∃ a ∈ db.rows, a.id ≠ i ∧ a.slug = create_slug t2) :
    add_article db t g c d = (db, false) ∧
    update_article db i t2 g2 c2 = (db, false) :=
  ⟨add_article_dup hcreate, update_article_dup hid hupd⟩

/-- Witness for C1: a create colliding with rowA's slug and an update of
rowB onto rowA's slug both fail and leave the two-row table unchanged. -/
theorem duplicate_slug_fails_and_preserves_state_witness :
    add_article dbW ['a'] [] [] ['f'] = (dbW, false) ∧
    update_article dbW 2 ['a'] [] [] = (dbW, false) :=
  duplicate_slug_fails_and_preserves_state dbW 2 ['a'] [] [] ['f'] ['a'] [] []
    (by decide) (by decide) (by decide)

/-- C2 counterexample: updating a nonexistent id (9999 on the empty table)
is NOT reported as a failure: the function returns True, the very value a
successful update returns, so no not-found signal reaches the caller. -/
theorem update_missing_counterexample :
    get_article_by_id emptyDB 9999 = none ∧
    (update_article emptyDB 9999 ['x'] [] []).2 ≠ false := by decide

/-- C2 (amended): updating a nonexistent id affects zero rows and leaves the
table's rows and row count unchanged, but the function returns True —
indistinguishable from a successful update; the not-found case is silent. -/
theorem update_missing_is_silent_noop (db : DB) (i : Nat) (t g c : List Char)
    (h : ¬ ∃ a ∈ db.rows, a.id = i) :
    update_article db i t g c = (db, true) :=
  update_article_missing h

/-- Witness for the amended C2 at id 9999 on the empty table. -/
theorem update_missing_is_silent_noop_witness :
    update_article emptyDB 9999 ['x'] [] [] = (emptyDB, true) :=
  update_missing_is_silent_noop emptyDB 9999 ['x'] [] [] (by decide)

/-- C6: a successful create followed by get_by_id on the assigned id (the
AUTOINCREMENT counter value at the time of the insert) returns an article
whose title, tags and content equal the inputs, whose slug is derived from
the title, and whose date is the stamped creation date. -/
theorem create_get_round_trip (db : DB) (t g c d : List Char) (db1 : DB)
    (hids : idsOk db)
    (h1 : add_article db t g c d = (db1, true)) :
    get_article_by_id db1 db.nextId =
      some { id := db.nextId, titolo := t, slug := create_slug t,
             data := d, tags := g, contenuto := c } := by
  by_cases hdup : ∃ a ∈ db.rows, a.slug = create_slug t
  · rw [add_article_dup hdup] at h1
    injection h1 with _ hb
    exact absurd hb (by simp)
  · rw [add_article_free hdup] at h1
    injection h1 with ha _
    subst ha
    unfold get_article_by_id
    dsimp only
    rw [List.find?_append]
    have hnone : db.rows.find? (fun a => decide (a.id = db.nextId)) = none := by
      rw [List.find?_eq_none]
      intro a ha
      simp only [decide_eq_true_eq]
      exact Nat.ne_of_lt (hids.1 a ha)
    rw [hnone]
    simp [List.find?]

/-- Witness for C6: create on the two-row table, then fetch id 3. -/
theorem create_get_round_trip_witness :
    get_article_by_id
      ({ rows := dbW.rows ++
           [{ id := 3, titolo := ['c'], slug := ['c'], data := ['f'],
              tags := ['t'], contenuto := ['x'] }],
         nextId := 4 }) 3 =
      some { id := 3, titolo := ['c'], slug := ['c'], data := ['f'],
             tags := ['t'], contenuto := ['x'] } := by
  have h := create_get_round_trip dbW ['c'] ['t'] ['x'] ['f']
    ({ rows := dbW.rows ++
         [{ id := 3, titolo := ['c'], slug := ['c'], data := ['f'],
            tags := ['t'], contenuto := ['x'] }],
       nextId := 4 }) (by decide) (by decide)
  exact h

/-- C7: in every reachable state, all stored ids are strictly below the
AUTOINCREMENT counter and strictly increase in insertion order (so ids are
unique and assigned monotonically); moreover a successful create assigns
exactly the counter value — strictly greater than every id ever stored, so
ids are never reused (the store has no delete operation, and a failed insert
stores nothing and does not advance the counter). -/
theorem ids_unique_monotone_fresh (ops : List Op) (t g c d : List Char) (db1 : DB)
    (h : add_article (run ops) t g c d = (db1, true)) :
    (∀ a ∈ (run ops).rows, a.id < (run ops).nextId) ∧
    ((run ops).rows.Pairwise fun a b => a.id < b.id) ∧
    db1.rows.map Article.id = (run ops).rows.map Article.id ++ [(run ops).nextId] ∧
    db1.nextId = (run ops).nextId + 1 := by
  obtain ⟨⟨hlt, hpw⟩, -⟩ := Inv_run ops
  refine ⟨hlt, hpw, ?_, ?_⟩ <;>
  · by_cases hdup : ∃ a ∈ (run ops).rows, a.slug = create_slug t
    · rw [add_article_dup hdup] at h
      injection h with _ hb
      exact absurd hb (by simp)
    · rw [add_article_free hdup] at h
      injection h with ha _
      subst ha
      simp

/-- Witness for C7 on a one-operation trace followed by a successful
create. -/
theorem ids_unique_monotone_fresh_witness :
    (∀ a ∈ (run [Op.add ['a'] [] [] ['d']]).rows,
      a.id < (run [Op.add ['a'] [] [] ['d']]).nextId) ∧
    ((run [Op.add ['a'] [] [] ['d']]).rows.Pairwise fun a b => a.id < b.id) ∧
    ({ rows := [{ id := 1, titolo := ['a'], slug := ['a'], data := ['d'],
                  tags := [], contenuto := [] },
                { id := 2, titolo := ['b'], slug := ['b'], data := ['e'],
                  tags := [], contenuto := [] }],
       nextId := 3 } : DB).rows.map Article.id =
      (run [Op.add ['a'] [] [] ['d']]).rows.map Article.id ++
        [(run [Op.add ['a'] [] [] ['d']]).nextId] ∧
    ({ rows := [{ id := 1, titolo := ['a'], slug := ['a'], data := ['d'],
                  tags := [], contenuto := [] },
                { id := 2, titolo := ['b'], slug := ['b'], data := ['e'],
                  tags := [], contenuto := [] }],
       nextId := 3 } : DB).nextId = (run [Op.add ['a'] [] [] ['d']]).nextId + 1 :=
  ids_unique_monotone_fresh [Op.add ['a'] [] [] ['d']] ['b'] [] [] ['e'] _ (by decide)

/-- Point lookup after the UPDATE's row map: under unique ids, the lookup
finds exactly the rewritten row. -/
theorem find_map_updRow (i : Nat) (t s g c : List Char) (a : Article) :
    ∀ l : List Article, a ∈ l → a.id = i → (∀ b ∈ l, b.id = i → b = a) →
      (l.map (updRow i t s g c)).find? (fun b => decide (b.id = i)) =
        some { a with titolo := t, slug := s, tags := g, contenuto := c } := by
  intro l
  induction l with
  | nil =>
    intro h _ _
    exact absurd h (List.not_mem_nil a)
  | cons b l ih =>
    intro hmem hai huniq
    by_cases hbi : b.id = i
    · have hba : b = a := huniq b (List.mem_cons_self b l) hbi
      subst hba
      rw [List.map_cons, List.find?_cons_of_pos _ (by simp [updRow_id, hbi]),
        updRow_of_eq hbi]
    · rw [List.map_cons, List.find?_cons_of_neg _ (by simp [updRow_id, hbi])]
      refine ih ?_ hai fun x hx hxi => huniq x (List.mem_cons_of_mem _ hx) hxi
      rcases List.mem_cons.mp hmem with h | h
      · exact absurd (h ▸ hai) hbi
      · exact h

/-- After a successful UPDATE of the (unique) row with id `i`, the point
lookup returns that row with the new titolo/slug/tags/contenuto and its
original `data`. -/
theorem get_after_update (db : DB) (i : Nat) (t g c : List Char) (db2 : DB)
    (hids : idsOk db) (a : Article) (ha : a ∈ db.rows) (hai : a.id = i)
    (h2 : update_article db i t g c = (db2, true)) :
    get_article_by_id db2 i =
      some { a with titolo := t, slug := create_slug t, tags := g, contenuto := c } := by
  have hp : ∃ b ∈ db.rows, b.id = i := ⟨a, ha, hai⟩
  by_cases hc : ∃ b ∈ db.rows, b.id ≠ i ∧ b.slug = create_slug t
  · rw [update_article_dup hp hc] at h2
    injection h2 with _ hb
    exact absurd hb (by simp)
  · rw [update_article_ok hp hc] at h2
    injection h2 with ha2 _
    subst ha2
    unfold get_article_by_id
    dsimp only
    exact find_map_updRow i t (create_slug t) g c a db.rows ha hai
      fun b hb hbi => id_inj hids hb ha (hbi.trans hai.symm)

/-- C4: when a create succeeds and a subsequent update of the created id
succeeds, the stored article keeps the publication date stamped at creation
while its slug (and title, tags, content) come from the update. -/
theorem update_preserves_publication_date
    (db : DB) (t0 g0 c0 d0 t1 g1 c1 : List Char) (db1 db2 : DB)
    (hinv : Inv db)
    (h1 : add_article db t0 g0 c0 d0 = (db1, true))
    (h2 : update_article db1 db.nextId t1 g1 c1 = (db2, true)) :
    get_article_by_id db2 db.nextId =
      some { id := db.nextId, titolo := t1, slug := create_slug t1,
             data := d0, tags := g1, contenuto := c1 } := by
  have hinv1 : Inv db1 := by
    have h := Inv_add hinv t0 g0 c0 d0
    rw [h1] at h
    exact h
  by_cases hdup : ∃ a ∈ db.rows, a.slug = create_slug t0
  · rw [add_article_dup hdup] at h1
    injection h1 with _ hb
    exact absurd hb (by simp)
  · rw [add_article_free hdup] at h1
    have hrow : ({ id := db.nextId, titolo := t0, slug := create_slug t0,
                   data := d0, tags := g0, contenuto := c0 } : Article) ∈ db1.rows := by
      injection h1 with ha _
      rw [← ha]
      exact List.mem_append_right _ (List.mem_singleton_self _)
    exact get_after_update db1 db.nextId t1 g1 c1 db2 hinv1.1 _ hrow rfl h2

/-- Witness for C4: create then update on the empty table; the date stays
at the creation stamp while title/slug change. -/
theorem update_preserves_publication_date_witness :
    get_article_by_id
      ({ rows := [{ id := 1, titolo := ['b'], slug := ['b'], data := ['d'],
                    tags := ['g'], contenuto := ['c'] }], nextId := 2 }) 1 =
      some { id := 1, titolo := ['b'], slug := ['b'], data := ['d'],
             tags := ['g'], contenuto := ['c'] } := by
  have h := update_preserves_publication_date emptyDB ['a'] [] [] ['d'] ['b'] ['g'] ['c']
    ({ rows := [{ id := 1, titolo := ['a'], slug := ['a'], data := ['d'],
                  tags := [], contenuto := [] }], nextId := 2 })
    ({ rows := [{ id := 1, titolo := ['b'], slug := ['b'], data := ['d'],
                  tags := ['g'], contenuto := ['c'] }], nextId := 2 })
    (by decide) (by decide) (by decide)
  exact h

/-- The concrete operation trace producing `dbW`, used by witnesses. -/
def opsW : List Op := [Op.add ['a'] [] [] ['d'], Op.add ['b'] [] [] ['e']]

/-- C9: updating a stored article with its own id and its currently stored
title, tags and content succeeds — re-deriving its own slug is not a
duplicate-slug collision against its own row — and leaves every row of the
table unchanged: self-update is a no-op. -/
theorem self_update_noop (ops : List Op) (a : Article) (ha : a ∈ (run ops).rows) :
    update_article (run ops) a.id a.titolo a.tags a.contenuto = (run ops, true) := by
  obtain ⟨hids, hslugs⟩ := Inv_run ops
  have hder : a.slug = create_slug a.titolo := hslugs.1 a ha
  have hp : ∃ b ∈ (run ops).rows, b.id = a.id := ⟨a, ha, rfl⟩
  have hc : ¬ ∃ b ∈ (run ops).rows, b.id ≠ a.id ∧ b.slug = create_slug a.titolo := by
    rintro ⟨b, hb, hbid, hbslug⟩
    have hne : b ≠ a := fun he => hbid (congrArg Article.id he)
    exact slug_inj hslugs hb ha hne (hbslug.trans hder.symm)
  rw [update_article_ok hp hc]
  have hmap : (run ops).rows.map
      (updRow a.id a.titolo (create_slug a.titolo) a.tags a.contenuto) = (run ops).rows := by
    have hpt : ∀ x ∈ (run ops).rows,
        updRow a.id a.titolo (create_slug a.titolo) a.tags a.contenuto x = id x := by
      intro x hx
      by_cases hxi : x.id = a.id
      · have hxa : x = a := id_inj hids hx ha hxi
        subst hxa
        rw [updRow_of_eq hxi, ← hder]
        rfl
      · exact updRow_of_ne hxi
    rw [List.map_congr_left hpt, List.map_id]
  rw [hmap]

/-- Witness for C9: self-update of rowA in the table reached by opsW. -/
theorem self_update_noop_witness :
    rowA ∈ (run opsW).rows ∧
    update_article (run opsW) rowA.id rowA.titolo rowA.tags rowA.contenuto =
      (run opsW, true) :=
  ⟨by decide, self_update_noop opsW rowA (by decide)⟩

/-- A title all of whose (lowercased) characters are stripped by the slug
filter yields the empty slug. -/
theorem create_slug_eq_nil {t : List Char} (h : ∀ ch ∈ t, keepChar (pyLower ch) = false) :
    create_slug t = [] := by
  unfold create_slug
  have hf : List.filter keepChar (t.map pyLower) = [] := by
    rw [List.filter_eq_nil_iff]
    intro a ha
    obtain ⟨c, hc, rfl⟩ := List.mem_map.mp ha
    simp [h c hc]
  rw [hf]
  rfl

/-- C8: a title made only of stripped characters derives the empty slug, and
the store still persists it: on a table holding no empty slug the first such
create succeeds and stores an empty-slug row; afterwards any further create
whose title also derives the empty slug, and any update of a different
existing id with such a title, fails as a duplicate slug with no change. -/
theorem empty_slug_collision
    (db : DB) (t1 t2 g1 c1 g2 c2 d1 d2 : List Char) (i : Nat)
    (h1 : ∀ ch ∈ t1, keepChar (pyLower ch) = false)
    (h2 : ∀ ch ∈ t2, keepChar (pyLower ch) = false)
    (hno : ¬ ∃ a ∈ db.rows, a.slug = ([] : List Char))
    (hi : ∃ a ∈ db.rows, a.id = i) (hne : i ≠ db.nextId) :
    create_slug t1 = [] ∧
    add_article db t1 g1 c1 d1 =
      ({ rows := db.rows ++
           [{ id := db.nextId, titolo := t1, slug := [], data := d1,
              tags := g1, contenuto := c1 }],
         nextId := db.nextId + 1 }, true) ∧
    add_article (add_article db t1 g1 c1 d1).1 t2 g2 c2 d2 =
      ((add_article db t1 g1 c1 d1).1, false) ∧
    update_article (add_article db t1 g1 c1 d1).1 i t2 g2 c2 =
      ((add_article db t1 g1 c1 d1).1, false) := by
  have hs1 : create_slug t1 = [] := create_slug_eq_nil h1
  have hs2 : create_slug t2 = [] := create_slug_eq_nil h2
  have hfree : ¬ ∃ a ∈ db.rows, a.slug = create_slug t1 := by
    rw [hs1]
    exact hno
  have hadd := @add_article_free db t1 g1 c1 d1 hfree
  refine ⟨hs1, ?_, ?_, ?_⟩
  · rw [hadd, hs1]
  · apply add_article_dup
    rw [hadd]
    dsimp only
    refine ⟨_, List.mem_append_right _ (List.mem_singleton_self _), ?_⟩
    dsimp only
    rw [hs1, hs2]
  · apply update_article_dup
    · rw [hadd]
      dsimp only
      obtain ⟨a, ha, hai⟩ := hi
      exact ⟨a, List.mem_append_left _ ha, hai⟩
    · rw [hadd]
      dsimp only
      refine ⟨_, List.mem_append_right _ (List.mem_singleton_self _), ?_, ?_⟩
      · dsimp only
        exact Ne.symm hne
      · dsimp only
        rw [hs1, hs2]

/-- Witness for C8 on the two-row table: titles "!" and "?" both derive the
empty slug; the first create succeeds, the second fails, and updating
article 1 to "?" fails as well. -/
theorem empty_slug_collision_witness :
    create_slug ['!'] = [] ∧
    add_article dbW ['!'] [] [] ['f'] =
      ({ rows := dbW.rows ++
           [{ id := dbW.nextId, titolo := ['!'], slug := [], data := ['f'],
              tags := [], contenuto := [] }],
         nextId := dbW.nextId + 1 }, true) ∧
    add_article (add_article dbW ['!'] [] [] ['f']).1 ['?'] [] [] ['f'] =
      ((add_article dbW ['!'] [] [] ['f']).1, false) ∧
    update_article (add_article dbW ['!'] [] [] ['f']).1 1 ['?'] [] [] =
      ((add_article dbW ['!'] [] [] ['f']).1, false) :=
  empty_slug_collision dbW ['!'] ['?'] [] [] [] [] ['f'] ['f'] 1
    (by decide) (by decide) (by decide) (by decide) (by decide)

/-- C10: the store-level create enforces no non-empty-title rule: on a table
holding no empty slug, creating with the empty title succeeds and stores a
row whose titolo and slug are both the empty string; and in any state a
create fails exactly when the derived slug is already stored. -/
theorem add_article_no_title_validation (db : DB) (g c d t : List Char)
    (hno : ¬ ∃ a ∈ db.rows, a.slug = ([] : List Char)) :
    add_article db [] g c d =
      ({ rows := db.rows ++
           [{ id := db.nextId, titolo := [], slug := [], data := d,
              tags := g, contenuto := c }],
         nextId := db.nextId + 1 }, true) ∧
    ((add_article db t g c d).2 = false ↔ ∃ a ∈ db.rows, a.slug = create_slug t) := by
  constructor
  · exact add_article_free hno
  · constructor
    · intro hf
      by_cases hdup : ∃ a ∈ db.rows, a.slug = create_slug t
      · exact hdup
      · rw [add_article_free hdup] at hf
        exact absurd hf (by simp)
    · intro hdup
      rw [add_article_dup hdup]

/-- Witness for C10 on the two-row table, with "a" as the colliding title. -/
theorem add_article_no_title_validation_witness :
    add_article dbW [] [] [] ['f'] =
      ({ rows := dbW.rows ++
           [{ id := dbW.nextId, titolo := [], slug := [], data := ['f'],
              tags := [], contenuto := [] }],
         nextId := dbW.nextId + 1 }, true) ∧
    ((add_article dbW ['a'] [] [] ['f']).2 = false ↔
      ∃ a ∈ dbW.rows, a.slug = create_slug ['a']) :=
  add_article_no_title_validation dbW [] [] ['f'] ['a'] (by decide)

theorem lexLe_refl (a : List Char) : lexLe a a = true := by
  induction a with
  | nil => rfl
  | cons x xs ih => simp [lexLe, lt_irrefl, ih]

theorem lexLe_total (a b : List Char) : lexLe a b = true ∨ lexLe b a = true := by
  induction a generalizing b with
  | nil => exact Or.inl rfl
  | cons x xs ih =>
    cases b with
    | nil => exact Or.inr rfl
    | cons y ys =>
      rcases lt_trichotomy x y with h | h | h
      · exact Or.inl (by simp [lexLe, h])
      · subst h
        rcases ih ys with h2 | h2
        · exact Or.inl (by simp [lexLe, lt_irrefl, h2])
        · exact Or.inr (by simp [lexLe, lt_irrefl, h2])
      · exact Or.inr (by simp [lexLe, h])

theorem lexLe_trans : ∀ {a b c : List Char},
    lexLe a b = true → lexLe b c = true → lexLe a c = true := by
  intro a
  induction a with
  | nil => intro b c _ _; rfl
  | cons x xs ih =>
    intro b c h1 h2
    cases b with
    | nil => simp [lexLe] at h1
    | cons y ys =>
      cases c with
      | nil => simp [lexLe] at h2
      | cons z zs =>
        simp only [lexLe] at h1 h2 ⊢
        rcases lt_trichotomy x y with hxy | hxy | hxy
        · rcases lt_trichotomy y z with hyz | hyz | hyz
          · rw [if_pos (lt_trans hxy hyz)]
          · rw [← hyz, if_pos hxy]
          · rw [if_neg (lt_asymm hyz), if_pos hyz] at h2
            exact absurd h2 (by simp)
        · subst hxy
          rw [if_neg (lt_irrefl x), if_neg (lt_irrefl x)] at h1
          rcases lt_trichotomy x z with hxz | hxz | hxz
          · rw [if_pos hxz]
          · subst hxz
            rw [if_neg (lt_irrefl x), if_neg (lt_irrefl x)] at h2 ⊢
            exact ih h1 h2
          · rw [if_neg (lt_asymm hxz), if_pos hxz] at h2
            exact absurd h2 (by simp)
        · rw [if_neg (lt_asymm hxy), if_pos hxy] at h1
          exact absurd h1 (by simp)

instance : IsTotal Article dataDescBefore := ⟨fun a b => lexLe_total b.data a.data⟩

instance : IsTrans Article dataDescBefore := ⟨fun _ _ _ hab hbc => lexLe_trans hbc hab⟩

/-- Stability of one ordered insertion with respect to the date key: rows
skipped over have strictly greater dates, so the filter at any fixed date is
unchanged apart from the inserted row appearing first among its ties. -/
theorem filter_data_orderedInsert (d : List Char) (x : Article) (l : List Article) :
    (List.orderedInsert dataDescBefore x l).filter (fun a => decide (a.data = d)) =
      if x.data = d then
        x :: l.filter (fun a => decide (a.data = d))
      else l.filter (fun a => decide (a.data = d)) := by
  induction l with
  | nil =>
    by_cases hx : x.data = d <;> simp [List.orderedInsert, List.filter, hx]
  | cons b l ih =>
    by_cases hr : dataDescBefore x b
    · rw [List.orderedInsert_of_le dataDescBefore _ hr]
      by_cases hx : x.data = d <;> by_cases hb : b.data = d <;>
        simp [List.filter, hx, hb]
    · have hoi : List.orderedInsert dataDescBefore x (b :: l) =
          b :: List.orderedInsert dataDescBefore x l := by
        simp [List.orderedInsert, hr]
      rw [hoi]
      by_cases hx : x.data = d
      · have hb : ¬ b.data = d := by
          intro hbd
          apply hr
          show lexLe b.data x.data = true
          rw [hbd, hx]
          exact lexLe_refl d
        rw [if_pos hx, List.filter_cons_of_neg (by simp [hb]),
          List.filter_cons_of_neg (by simp [hb]), ih, if_pos hx]
      · rw [if_neg hx]
        by_cases hb : b.data = d
        · rw [List.filter_cons_of_pos (by simp [hb]),
            List.filter_cons_of_pos (by simp [hb]), ih, if_neg hx]
        · rw [List.filter_cons_of_neg (by simp [hb]),
            List.filter_cons_of_neg (by simp [hb]), ih, if_neg hx]

/-- Stability of the whole sort: filtering the sorted list at any fixed date
gives the same subsequence as filtering the stored list. -/
theorem filter_data_insertionSort (d : List Char) (l : List Article) :
    (List.insertionSort dataDescBefore l).filter (fun a => decide (a.data = d)) =
      l.filter (fun a => decide (a.data = d)) := by
  induction l with
  | nil => rfl
  | cons x l ih =>
    simp only [List.insertionSort]
    rw [filter_data_orderedInsert]
    by_cases hx : x.data = d
    · rw [if_pos hx, ih, List.filter_cons_of_pos (by simp [hx])]
    · rw [if_neg hx, ih, List.filter_cons_of_neg (by simp [hx])]

/-- C5: list_all returns every stored article exactly once (a permutation of
the table), in weakly descending publication-date order (codepoint order on
the ISO date strings, most recent first), and rows with equal dates appear
in their stored insertion order (the filter at each date is unchanged). -/
theorem get_articles_ordered_stable (db : DB) :
    (get_articles db).Perm db.rows ∧
    (get_articles db).Pairwise (fun a b => lexLe b.data a.data = true) ∧
    ∀ d, (get_articles db).filter (fun a => decide (a.data = d)) =
      db.rows.filter (fun a => decide (a.data = d)) :=
  ⟨List.perm_insertionSort dataDescBefore db.rows,
   List.sorted_insertionSort dataDescBefore db.rows,
   fun d => filter_data_insertionSort d db.rows⟩

end CMS
